import Mathlib

/-!
Verification development for the LRP toolbox layers: the mxnet `SumPool`
layer (`src/python/mxmodules/sumpool.py`) and the tensorflow `softmax`
layer (`src/tensorflow/mnist/softmax.py`).

Tensors are embedded as total functions `ℕ → ℕ → ℕ → ℕ → ℚ` (indices:
batch n, height h, width w, channel d) paired with explicit shape data.
Exact rational arithmetic stands in for the source's floating point; the
decimal stabilizer constants `1e-12` / `1e-16` are taken at their exact
decimal values.  The source's per-output-position accumulation loops
(`Rx[window] += contribution`) are embedded as, at each input position,
the sum over all output positions whose pooling window contains that
position — a reindexing of the same additive accumulation.
-/

/-- Raw 4D tensor values: batch, height, width, channel indices to a rational.
Entries outside a tensor's declared shape are never read by the embedding. -/
abbrev Tdata : Type := ℕ → ℕ → ℕ → ℕ → ℚ

/-- A shaped 4D tensor, mirroring an `mxnet.nd.NDArray` of shape `(N,H,W,D)`. -/
structure STensor where
  dimN : ℕ
  dimH : ℕ
  dimW : ℕ
  dimD : ℕ
  data : Tdata

/-- The shape tuple `(N,H,W,D)` of a tensor, as read from `X.shape`. -/
def STensor.shape (T : STensor) : ℕ × ℕ × ℕ × ℕ := (T.dimN, T.dimH, T.dimW, T.dimD)

/-- Output spatial extent used throughout `sumpool.py`:
`Hout = (H - hpool) / hstride + 1` (Python 2 integer division; the layer
assumes the division is exact — "assume the given pooling and stride
parameters are carefully chosen"). -/
def houtDim (H hpool hstride : ℕ) : ℕ := (H - hpool) / hstride + 1

/-- Sum of one pooling window: the source's
`X[:, i*hstride:i*hstride+hpool, j*wstride:j*wstride+wpool, :].sum(axis=(1,2))`
at batch `n`, output position `(i,j)`, channel `d`. -/
def windowSum (hpool wpool hstride wstride : ℕ) (X : Tdata) (n i j d : ℕ) : ℚ :=
  ∑ a ∈ Finset.range hpool, ∑ b ∈ Finset.range wpool,
    X n (i * hstride + a) (j * wstride + b) d

/-- Input position `(h,w)` lies in the pooling window of output position `(i,j)`:
the index set written to by the slice
`[:, i*hstride:i*hstride+hpool, j*wstride:j*wstride+wpool, :]`. -/
def inWindow (hpool wpool hstride wstride i j h w : ℕ) : Prop :=
  (i * hstride ≤ h ∧ h < i * hstride + hpool) ∧ (j * wstride ≤ w ∧ w < j * wstride + wpool)

instance (hpool wpool hstride wstride i j h w : ℕ) :
    Decidable (inWindow hpool wpool hstride wstride i j h w) := by
  unfold inWindow; exact inferInstance

/-- Data of `SumPool.forward`: each output entry `(n,i,j,d)` is the window sum
scaled by the normalizer (`Y[:,i,j,:] = window.sum(axis=(1,2)) * normalizer`). -/
def forwardData (hpool wpool hstride wstride : ℕ) (nrm : ℚ) (X : Tdata) : Tdata :=
  fun n i j d => windowSum hpool wpool hstride wstride X n i j d * nrm

/-- Data of `SumPool.backward`: the loop
`DX[:, i*hstride:i*hstride+hpool, j*wstride:j*wstride+wpool, :] += DY[:,i:i+1,j:j+1,:] * normalizer`
over all output positions, re-expressed per input position as the sum of the
contributions of every window containing it. -/
def backwardData (hpool wpool hstride wstride : ℕ) (nrm : ℚ) (H W : ℕ) (DY : Tdata) : Tdata :=
  fun n h w d =>
    ∑ i ∈ Finset.range (houtDim H hpool hstride), ∑ j ∈ Finset.range (houtDim W wpool wstride),
      if inWindow hpool wpool hstride wstride i j h w then DY n i j d * nrm else 0

/-- The sign factor `((Zs >= 0)*2 - 1)` from `_simple_lrp`/`_epsilon_lrp`:
`1` when `0 ≤ zs`, else `-1` (booleans coerce to `1`/`0` in the source). -/
def stabSign (zs : ℚ) : ℚ := (if 0 ≤ zs then (1 : ℚ) else 0) * 2 - 1

/-- Data of `SumPool._simple_lrp`: per window, `Z = X[window]`,
`Zs = Z.sum(axis=(1,2)) + 1e-12*((Zs >= 0)*2-1)`, contribution
`(Z/Zs) * R[:,i:i+1,j:j+1,:]`, accumulated over all windows containing the
input position. -/
def simpleLrpData (hpool wpool hstride wstride H W : ℕ) (X R : Tdata) : Tdata :=
  fun n h w d =>
    ∑ i ∈ Finset.range (houtDim H hpool hstride), ∑ j ∈ Finset.range (houtDim W wpool wstride),
      if inWindow hpool wpool hstride wstride i j h w then
        (X n h w d /
            (windowSum hpool wpool hstride wstride X n i j d +
              1e-12 * stabSign (windowSum hpool wpool hstride wstride X n i j d))) *
          R n i j d
      else 0

/-- Data of `SumPool._epsilon_lrp`: identical to `_simple_lrp` except the
stabilizer magnitude is the caller-supplied `epsilon`. -/
def epsilonLrpData (hpool wpool hstride wstride H W : ℕ) (epsilon : ℚ) (X R : Tdata) : Tdata :=
  fun n h w d =>
    ∑ i ∈ Finset.range (houtDim H hpool hstride), ∑ j ∈ Finset.range (houtDim W wpool wstride),
      if inWindow hpool wpool hstride wstride i j h w then
        (X n h w d /
            (windowSum hpool wpool hstride wstride X n i j d +
              epsilon * stabSign (windowSum hpool wpool hstride wstride X n i j d))) *
          R n i j d
      else 0

/-- Data of `SumPool._flat_lrp`: per window, `Z = ones(N,hpool,wpool,D)`,
`Zs = Z.sum(axis=(1,2))`, contribution `(Z/Zs) * R[:,i:i+1,j:j+1,:]`; the
per-element weight is `1 / (sum of ones over the window)` and never reads the
cached input's values. -/
def flatLrpData (hpool wpool hstride wstride H W : ℕ) (R : Tdata) : Tdata :=
  fun n h w d =>
    ∑ i ∈ Finset.range (houtDim H hpool hstride), ∑ j ∈ Finset.range (houtDim W wpool wstride),
      if inWindow hpool wpool hstride wstride i j h w then
        ((1 : ℚ) / (∑ a ∈ Finset.range hpool, ∑ b ∈ Finset.range wpool, (1 : ℚ))) * R n i j d
      else 0

/-- Elementwise `Z * (Z > 0)` from `_alphabeta_lrp`. -/
def zPos (x : ℚ) : ℚ := x * (if 0 < x then (1 : ℚ) else 0)

/-- Elementwise `Z * (Z < 0)` from `_alphabeta_lrp`. -/
def zNeg (x : ℚ) : ℚ := x * (if x < 0 then (1 : ℚ) else 0)

/-- Data of `SumPool._alphabeta_lrp`: with `beta = 1 - alpha`, the positive
branch `Ralpha = (Zp / (Zp.sum+1e-16)) * R` is computed only when
`alpha ≠ 0` (else `Ralpha = 0`), the negative branch
`Rbeta = (Zn / (Zn.sum-1e-16)) * R` only when `beta ≠ 0`, and
`Ralpha + Rbeta` is accumulated over the window. -/
def alphabetaLrpData (hpool wpool hstride wstride H W : ℕ) (alpha : ℚ) (X R : Tdata) : Tdata :=
  fun n h w d =>
    ∑ i ∈ Finset.range (houtDim H hpool hstride), ∑ j ∈ Finset.range (houtDim W wpool wstride),
      if inWindow hpool wpool hstride wstride i j h w then
        (if alpha = 0 then 0 else
          (zPos (X n h w d) /
              (windowSum hpool wpool hstride wstride (fun n h w d => zPos (X n h w d)) n i j d +
                1e-16)) *
            R n i j d) +
        (if 1 - alpha = 0 then 0 else
          (zNeg (X n h w d) /
              (windowSum hpool wpool hstride wstride (fun n h w d => zNeg (X n h w d)) n i j d -
                1e-16)) *
            R n i j d)
      else 0

/-- Modelled from the spec's description of the alpha=1 case of
`_alphabeta_lrp`: "the positive-part-only term of the decomposition
(relevance weighted by Zp/(sum(Zp)+1e-16) where Zp keeps only positive window
elements)", with the negative branch absent. -/
def alphabetaPosOnlyData (hpool wpool hstride wstride H W : ℕ) (X R : Tdata) : Tdata :=
  fun n h w d =>
    ∑ i ∈ Finset.range (houtDim H hpool hstride), ∑ j ∈ Finset.range (houtDim W wpool wstride),
      if inWindow hpool wpool hstride wstride i j h w then
        (zPos (X n h w d) /
            (windowSum hpool wpool hstride wstride (fun n h w d => zPos (X n h w d)) n i j d +
              1e-16)) *
          R n i j d
      else 0

/-- Modelled from the spec's description of the alpha=0 case of
`_alphabeta_lrp`: the negative-part-only term, with the positive branch
absent. -/
def alphabetaNegOnlyData (hpool wpool hstride wstride H W : ℕ) (X R : Tdata) : Tdata :=
  fun n h w d =>
    ∑ i ∈ Finset.range (houtDim H hpool hstride), ∑ j ∈ Finset.range (houtDim W wpool wstride),
      if inWindow hpool wpool hstride wstride i j h w then
        (zNeg (X n h w d) /
            (windowSum hpool wpool hstride wstride (fun n h w d => zNeg (X n h w d)) n i j d -
              1e-16)) *
          R n i j d
      else 0

/-- The `SumPool` layer object: configuration `pool`/`stride`, the normalizer
constant, and the cached buffers `self.X` / `self.Y` (absent until `forward`
runs, cleared by `clean`).  The source recomputes
`normalizer = 1/((hpool*wpool)**.5)` inside each method from the immutable
`pool`; since that value is irrational for non-square `hpool*wpool`, the
embedding carries it as the rational field `nrm`, instantiated with the exact
value (`1/2` for the spec's `pool=(2,2)` scenarios, where `1/sqrt(4) = 1/2`). -/
structure SumPool where
  pool : ℕ × ℕ
  stride : ℕ × ℕ
  nrm : ℚ
  X : Option STensor := none
  Y : Option STensor := none

/-- Failure raised by running `backward`/`lrp*` on an absent cached input
(Python: `self.X.shape` on `None` raises `AttributeError`). -/
inductive PoolError where
  | missingInput
deriving DecidableEq

/-- `SumPool.forward`: stores the input as `self.X`, allocates the output of
shape `(N, (H-hpool)/hstride+1, (W-wpool)/wstride+1, D)`, fills it with the
normalized window sums, stores it as `self.Y`, and returns it. -/
def SumPool.forward (L : SumPool) (X : STensor) : SumPool × STensor :=
  let Y : STensor :=
    { dimN := X.dimN
      dimH := houtDim X.dimH L.pool.1 L.stride.1
      dimW := houtDim X.dimW L.pool.2 L.stride.2
      dimD := X.dimD
      data := forwardData L.pool.1 L.pool.2 L.stride.1 L.stride.2 L.nrm X.data }
  ({ L with X := some X, Y := some Y }, Y)

/-- `SumPool.backward`: reads `self.X.shape` (failing when the cached input is
absent), then distributes `DY * normalizer` over each contributing window into
a zero-initialized gradient of the cached input's shape.  The layer's own
state is not written. -/
def SumPool.backward (L : SumPool) (DY : STensor) : SumPool × Except PoolError STensor :=
  (L, match L.X with
      | none => .error .missingInput
      | some X0 => .ok
          { dimN := X0.dimN, dimH := X0.dimH, dimW := X0.dimW, dimD := X0.dimD
            data := backwardData L.pool.1 L.pool.2 L.stride.1 L.stride.2 L.nrm
              X0.dimH X0.dimW DY.data })

/-- `SumPool.clean`: releases both cached buffers (`self.X = None`,
`self.Y = None`). -/
def SumPool.clean (L : SumPool) : SumPool := { L with X := none, Y := none }

/-- `SumPool._simple_lrp`. -/
def SumPool.simple_lrp (L : SumPool) (R : STensor) : SumPool × Except PoolError STensor :=
  (L, match L.X with
      | none => .error .missingInput
      | some X0 => .ok
          { dimN := X0.dimN, dimH := X0.dimH, dimW := X0.dimW, dimD := X0.dimD
            data := simpleLrpData L.pool.1 L.pool.2 L.stride.1 L.stride.2
              X0.dimH X0.dimW X0.data R.data })

/-- `SumPool._flat_lrp`: reads only the cached input's shape. -/
def SumPool.flat_lrp (L : SumPool) (R : STensor) : SumPool × Except PoolError STensor :=
  (L, match L.X with
      | none => .error .missingInput
      | some X0 => .ok
          { dimN := X0.dimN, dimH := X0.dimH, dimW := X0.dimW, dimD := X0.dimD
            data := flatLrpData L.pool.1 L.pool.2 L.stride.1 L.stride.2
              X0.dimH X0.dimW R.data })

/-- `SumPool._ww_lrp`: the source body is `return self._flat_lrp(R)`. -/
def SumPool.ww_lrp (L : SumPool) (R : STensor) : SumPool × Except PoolError STensor :=
  L.flat_lrp R

/-- `SumPool._epsilon_lrp`. -/
def SumPool.epsilon_lrp (L : SumPool) (R : STensor) (epsilon : ℚ) :
    SumPool × Except PoolError STensor :=
  (L, match L.X with
      | none => .error .missingInput
      | some X0 => .ok
          { dimN := X0.dimN, dimH := X0.dimH, dimW := X0.dimW, dimD := X0.dimD
            data := epsilonLrpData L.pool.1 L.pool.2 L.stride.1 L.stride.2
              X0.dimH X0.dimW epsilon X0.data R.data })

/-- `SumPool._alphabeta_lrp`. -/
def SumPool.alphabeta_lrp (L : SumPool) (R : STensor) (alpha : ℚ) :
    SumPool × Except PoolError STensor :=
  (L, match L.X with
      | none => .error .missingInput
      | some X0 => .ok
          { dimN := X0.dimN, dimH := X0.dimH, dimW := X0.dimW, dimD := X0.dimD
            data := alphabetaLrpData L.pool.1 L.pool.2 L.stride.1 L.stride.2
              X0.dimH X0.dimW alpha X0.data R.data })

/-- The tensorflow `softmax` layer's state: the cached activations buffer. -/
structure Softmax where
  activations : Option STensor := none

/-- `softmax.lrp(self, R, *args, **kwargs)`: "just propagate R further down";
the variadic extra arguments are ignored. -/
def Softmax.lrp {A B : Type} (S : Softmax) (R : STensor) (varargs : A) (kwargs : B) : STensor :=
  R

/-- `softmax.clean`. -/
def Softmax.clean (S : Softmax) : Softmax := { S with activations := none }

/-- Sum of every entry of an `(N,H,W,D)`-shaped tensor (channel sum placed
before the spatial sums; any summation order gives the same total). -/
def tensorSum (N H W D : ℕ) (T : Tdata) : ℚ :=
  ∑ n ∈ Finset.range N, ∑ d ∈ Finset.range D,
    ∑ h ∈ Finset.range H, ∑ w ∈ Finset.range W, T n h w d

/-- Sum of one batch/channel slice of a tensor over its spatial extent. -/
def sliceSum (H W : ℕ) (T : Tdata) (n d : ℕ) : ℚ :=
  ∑ h ∈ Finset.range H, ∑ w ∈ Finset.range W, T n h w d

/-- All-ones tensor data. -/
def onesData : Tdata := fun _ _ _ _ => 1

/-- The spec's concrete input: shape `(1,4,4,1)` filled with `1.0`. -/
def onesX4 : STensor := ⟨1, 4, 4, 1, onesData⟩

/-- The spec's concrete upstream relevance/gradient: ones shaped `(1,2,2,1)`. -/
def onesR2 : STensor := ⟨1, 2, 2, 1, onesData⟩

/-- A fresh `SumPool(pool=(2,2), stride=(2,2))`; its normalizer is exactly
`1/sqrt(2*2) = 1/2`. -/
def pool22 : SumPool := ⟨(2, 2), (2, 2), 1 / 2, none, none⟩

/-- Claim C2: for every valid pool/stride/shape combination (pool fits inside
the input and the stride divides the remaining extent exactly), `forward(X)`
returns a tensor of shape `(N, (H-ph)/sh+1, (W-pw)/sw+1, D)`, and the cached
`lastOutput` is that very tensor (hence has the same shape). -/
theorem sumpool_forward_shape (L : SumPool) (X : STensor)
    (hph : L.pool.1 ≤ X.dimH) (hpw : L.pool.2 ≤ X.dimW)
    (hdh : L.stride.1 ∣ X.dimH - L.pool.1) (hdw : L.stride.2 ∣ X.dimW - L.pool.2) :
    (L.forward X).2.shape
        = (X.dimN, (X.dimH - L.pool.1) / L.stride.1 + 1,
            (X.dimW - L.pool.2) / L.stride.2 + 1, X.dimD)
      ∧ (L.forward X).1.Y = some (L.forward X).2 :=
  ⟨rfl, rfl⟩

/-- Witness for C2 at `pool=(2,2)`, `stride=(2,2)`, input shape `(1,4,4,1)`. -/
theorem sumpool_forward_shape_witness :
    (pool22.forward onesX4).2.shape = (1, 2, 2, 1)
      ∧ (pool22.forward onesX4).1.Y = some (pool22.forward onesX4).2 :=
  sumpool_forward_shape pool22 onesX4 (by decide) (by decide) (by decide) (by decide)

/-- Claim C3: `forward` computes at each output position `(i,j)` the sum of
the pooling window over the height/width axes only, scaled by the normalizer;
as a side effect it stores the input as `lastInput` and the result as
`lastOutput`.  Concretely, for a `(1,4,4,1)` all-ones input with
`pool = stride = (2,2)` (normalizer `1/2`), every output element equals `2`. -/
theorem sumpool_forward_computation (L : SumPool) (X : STensor) :
    (∀ n i j d, (L.forward X).2.data n i j d
        = windowSum L.pool.1 L.pool.2 L.stride.1 L.stride.2 X.data n i j d * L.nrm)
      ∧ (L.forward X).1.X = some X
      ∧ (L.forward X).1.Y = some (L.forward X).2
      ∧ (∀ i j, i < 2 → j < 2 → (pool22.forward onesX4).2.data 0 i j 0 = 2) := by
  refine ⟨fun n i j d => rfl, rfl, rfl, fun i j hi hj => ?_⟩
  interval_cases i <;> interval_cases j <;>
    norm_num [SumPool.forward, forwardData, windowSum, pool22, onesX4, onesData,
      Finset.sum_range_succ]

/-- Witness for C3: the bottom-right output element of the concrete scenario. -/
theorem sumpool_forward_computation_witness :
    (pool22.forward onesX4).2.data 0 1 1 0 = 2 :=
  (sumpool_forward_computation pool22 onesX4).2.2.2 1 1 (by decide) (by decide)

/-- Claim C5: after `clean()` (and before any new `forward`), `backward` and
every LRP strategy method fail with the missing-state error caused by reading
the absent cached input, rather than silently returning a zero tensor. -/
theorem sumpool_clean_missing_state (L : SumPool) (DY R : STensor) (eps alpha : ℚ) :
    ((L.clean).backward DY).2 = .error .missingInput
      ∧ ((L.clean).simple_lrp R).2 = .error .missingInput
      ∧ ((L.clean).flat_lrp R).2 = .error .missingInput
      ∧ ((L.clean).ww_lrp R).2 = .error .missingInput
      ∧ ((L.clean).epsilon_lrp R eps).2 = .error .missingInput
      ∧ ((L.clean).alphabeta_lrp R alpha).2 = .error .missingInput :=
  ⟨rfl, rfl, rfl, rfl, rfl, rfl⟩

/-- Claim C6: the `ww` relevance strategy is identical to the `flat` strategy
for every layer state (cached input present or not) and every relevance
input — the source body of `_ww_lrp` is `return self._flat_lrp(R)`. -/
theorem sumpool_ww_eq_flat (L : SumPool) (R : STensor) :
    L.ww_lrp R = L.flat_lrp R :=
  rfl

/-- Claim C9: the softmax layer's relevance rule is the identity: for every
state, relevance tensor and extra arguments, `lrp` returns `R` unchanged. -/
theorem softmax_lrp_identity {A B : Type} (S : Softmax) (R : STensor) (a : A) (b : B) :
    S.lrp R a b = R :=
  rfl

/-- Claim C10 (frame property): `backward` and all five relevance strategies
leave the layer's state — cached `lastInput`/`lastOutput` and the `pool`,
`stride`, normalizer configuration — unchanged; `forward` and `clean`, which
do mutate the cached buffers, still leave the configuration unchanged. -/
theorem sumpool_frame (L : SumPool) (X DY R : STensor) (eps alpha : ℚ) :
    (L.backward DY).1 = L
      ∧ (L.simple_lrp R).1 = L
      ∧ (L.flat_lrp R).1 = L
      ∧ (L.ww_lrp R).1 = L
      ∧ (L.epsilon_lrp R eps).1 = L
      ∧ (L.alphabeta_lrp R alpha).1 = L
      ∧ (L.forward X).1.pool = L.pool
      ∧ (L.forward X).1.stride = L.stride
      ∧ (L.forward X).1.nrm = L.nrm
      ∧ (L.clean).pool = L.pool
      ∧ (L.clean).stride = L.stride
      ∧ (L.clean).nrm = L.nrm :=
  ⟨rfl, rfl, rfl, rfl, rfl, rfl, rfl, rfl, rfl, rfl, rfl, rfl⟩

/-- Claim C8: `_alphabeta_lrp` with `alpha = 1` (so `beta = 0`) equals the
positive-part-only term of the decomposition, and with `alpha = 0` (so
`beta = 1`) equals the negative-part-only term; the zero-coefficient branch —
including its stabilized division — is skipped entirely. -/
theorem sumpool_alphabeta_cases (hpool wpool hstride wstride H W : ℕ) (X R : Tdata) :
    alphabetaLrpData hpool wpool hstride wstride H W 1 X R
        = alphabetaPosOnlyData hpool wpool hstride wstride H W X R
      ∧ alphabetaLrpData hpool wpool hstride wstride H W 0 X R
        = alphabetaNegOnlyData hpool wpool hstride wstride H W X R := by
  constructor
  · funext n h w d
    unfold alphabetaLrpData alphabetaPosOnlyData
    refine Finset.sum_congr rfl fun i _ => Finset.sum_congr rfl fun j _ => ?_
    by_cases hc : inWindow hpool wpool hstride wstride i j h w
    · rw [if_pos hc, if_pos hc]
      norm_num
    · rw [if_neg hc, if_neg hc]
  · funext n h w d
    unfold alphabetaLrpData alphabetaNegOnlyData
    refine Finset.sum_congr rfl fun i _ => Finset.sum_congr rfl fun j _ => ?_
    by_cases hc : inWindow hpool wpool hstride wstride i j h w
    · rw [if_pos hc, if_pos hc]
      norm_num
    · rw [if_neg hc, if_neg hc]
/-- Under the exact-divisibility precondition, every pooling window lies
entirely inside the input extent. -/
lemma window_le (H hpool hstride i : ℕ) (hph : hpool ≤ H) (hdvd : hstride ∣ H - hpool)
    (hi : i < houtDim H hpool hstride) : i * hstride + hpool ≤ H := by
  have hi' : i ≤ (H - hpool) / hstride := Nat.le_of_lt_succ hi
  have h1 : i * hstride ≤ (H - hpool) / hstride * hstride :=
    Nat.mul_le_mul_right _ hi'
  have h2 : (H - hpool) / hstride * hstride = H - hpool := Nat.div_mul_cancel hdvd
  have h3 : i * hstride ≤ H - hpool := h2 ▸ h1
  calc i * hstride + hpool ≤ (H - hpool) + hpool := Nat.add_le_add_right h3 _
    _ = H := Nat.sub_add_cancel hph

/-- A range-sum restricted by an interval condition collapses to the sum over
the window offsets, provided the window fits inside the range. -/
lemma sum_ite_window (H lo len : ℕ) (hle : lo + len ≤ H) (f : ℕ → ℚ) :
    (∑ h ∈ Finset.range H, if lo ≤ h ∧ h < lo + len then f h else 0)
      = ∑ a ∈ Finset.range len, f (lo + a) := by
  have hsub : Finset.Ico lo (lo + len) ⊆ Finset.range H := by
    intro x hx
    rw [Finset.mem_range]
    exact lt_of_lt_of_le (Finset.mem_Ico.mp hx).2 hle
  calc (∑ h ∈ Finset.range H, if lo ≤ h ∧ h < lo + len then f h else 0)
      = ∑ h ∈ Finset.range H, if h ∈ Finset.Ico lo (lo + len) then f h else 0 := by
        refine Finset.sum_congr rfl fun h _ => ?_
        simp [Finset.mem_Ico]
    _ = ∑ h ∈ Finset.range H ∩ Finset.Ico lo (lo + len), f h := Finset.sum_ite_mem _ _ _
    _ = ∑ h ∈ Finset.Ico lo (lo + len), f h := by
        rw [Finset.inter_eq_right.mpr hsub]
    _ = ∑ a ∈ Finset.range len, f (lo + a) := by
        rw [Finset.sum_Ico_eq_sum_range, Nat.add_sub_cancel_left]

/-- Two-dimensional version of `sum_ite_window`, with the product condition
used by `inWindow`. -/
lemma sum_ite_window2 (H W lo1 len1 lo2 len2 : ℕ) (h1 : lo1 + len1 ≤ H)
    (h2 : lo2 + len2 ≤ W) (g : ℕ → ℕ → ℚ) :
    (∑ h ∈ Finset.range H, ∑ w ∈ Finset.range W,
        if (lo1 ≤ h ∧ h < lo1 + len1) ∧ (lo2 ≤ w ∧ w < lo2 + len2) then g h w else 0)
      = ∑ a ∈ Finset.range len1, ∑ b ∈ Finset.range len2, g (lo1 + a) (lo2 + b) := by
  have step1 : ∀ h, (∑ w ∈ Finset.range W,
      if (lo1 ≤ h ∧ h < lo1 + len1) ∧ (lo2 ≤ w ∧ w < lo2 + len2) then g h w else 0)
      = if lo1 ≤ h ∧ h < lo1 + len1 then ∑ b ∈ Finset.range len2, g h (lo2 + b) else 0 := by
    intro h
    by_cases hP : lo1 ≤ h ∧ h < lo1 + len1
    · rw [if_pos hP]
      calc (∑ w ∈ Finset.range W,
            if (lo1 ≤ h ∧ h < lo1 + len1) ∧ (lo2 ≤ w ∧ w < lo2 + len2) then g h w else 0)
          = ∑ w ∈ Finset.range W, if lo2 ≤ w ∧ w < lo2 + len2 then g h w else 0 := by
            refine Finset.sum_congr rfl fun w _ => ?_
            simp [hP]
        _ = ∑ b ∈ Finset.range len2, g h (lo2 + b) := sum_ite_window W lo2 len2 h2 (g h)
    · rw [if_neg hP]
      simp [hP]
  rw [Finset.sum_congr rfl fun h _ => step1 h]
  exact sum_ite_window H lo1 len1 h1 (fun h => ∑ b ∈ Finset.range len2, g h (lo2 + b))

/-- Rotating one summation index past two others. -/
lemma sum_rotate3 {M : Type} [AddCommMonoid M] (s a b : Finset ℕ) (G : ℕ → ℕ → ℕ → M) :
    (∑ x ∈ s, ∑ y ∈ a, ∑ z ∈ b, G x y z) = ∑ y ∈ a, ∑ z ∈ b, ∑ x ∈ s, G x y z := by
  rw [Finset.sum_comm]
  exact Finset.sum_congr rfl fun y _ => Finset.sum_comm

/-- Exchanging the outer index pair with the inner index pair of a quadruple
sum. -/
lemma sum_swap_pairs {M : Type} [AddCommMonoid M] (s1 s2 s3 s4 : Finset ℕ)
    (F : ℕ → ℕ → ℕ → ℕ → M) :
    (∑ h ∈ s1, ∑ w ∈ s2, ∑ i ∈ s3, ∑ j ∈ s4, F h w i j)
      = ∑ i ∈ s3, ∑ j ∈ s4, ∑ h ∈ s1, ∑ w ∈ s2, F h w i j := by
  rw [Finset.sum_congr rfl fun h _ => sum_rotate3 s2 s3 s4 (fun w i j => F h w i j)]
  exact sum_rotate3 s1 s3 s4 (fun h i j => ∑ w ∈ s2, F h w i j)

/-- Spatial total of a window-accumulation loop: summing, over all input
positions, the contributions of every window containing that position equals
summing each window's contributions over its own offsets.  This is the shape
shared by `backward` and all LRP strategies of `sumpool.py`. -/
lemma sum_accumulate (hpool wpool hstride wstride H W : ℕ) (hph : hpool ≤ H)
    (hpw : wpool ≤ W) (hdh : hstride ∣ H - hpool) (hdw : wstride ∣ W - wpool)
    (t : ℕ → ℕ → ℕ → ℕ → ℚ) :
    (∑ h ∈ Finset.range H, ∑ w ∈ Finset.range W,
        ∑ i ∈ Finset.range (houtDim H hpool hstride),
          ∑ j ∈ Finset.range (houtDim W wpool wstride),
            if inWindow hpool wpool hstride wstride i j h w then t i j h w else 0)
      = ∑ i ∈ Finset.range (houtDim H hpool hstride),
          ∑ j ∈ Finset.range (houtDim W wpool wstride),
            ∑ a ∈ Finset.range hpool, ∑ b ∈ Finset.range wpool,
              t i j (i * hstride + a) (j * wstride + b) := by
  rw [sum_swap_pairs]
  refine Finset.sum_congr rfl fun i hi => Finset.sum_congr rfl fun j hj => ?_
  have hiH : i * hstride + hpool ≤ H :=
    window_le H hpool hstride i hph hdh (Finset.mem_range.mp hi)
  have hjW : j * wstride + wpool ≤ W :=
    window_le W wpool wstride j hpw hdw (Finset.mem_range.mp hj)
  have := sum_ite_window2 H W (i * hstride) hpool (j * wstride) wpool hiH hjW
    (fun h w => t i j h w)
  simpa [inWindow] using this

/-- A constant summed over the window offsets. -/
lemma sum_const_window (hpool wpool : ℕ) (c : ℚ) :
    (∑ a ∈ Finset.range hpool, ∑ b ∈ Finset.range wpool, c)
      = (hpool : ℚ) * ((wpool : ℚ) * c) := by
  simp [Finset.sum_const, Finset.card_range, mul_assoc]
/-- Claim C1: `backward` is the exact adjoint of `forward`'s linear map: for
every input `X` satisfying the exact-divisibility precondition and every
gradient `dY` shaped like the output, after `forward(X)` the inner product
`sum(forward(X) * dY)` equals `sum(X * backward(dY))` exactly (over the exact
rational arithmetic standing in for floating point). -/
theorem sumpool_backward_adjoint (L : SumPool) (X DY : STensor)
    (hph : L.pool.1 ≤ X.dimH) (hpw : L.pool.2 ≤ X.dimW)
    (hdh : L.stride.1 ∣ X.dimH - L.pool.1) (hdw : L.stride.2 ∣ X.dimW - L.pool.2) :
    ∃ DX : STensor,
      (((L.forward X).1).backward DY).2 = Except.ok DX
        ∧ tensorSum X.dimN (houtDim X.dimH L.pool.1 L.stride.1)
            (houtDim X.dimW L.pool.2 L.stride.2) X.dimD
            (fun n i j d => (L.forward X).2.data n i j d * DY.data n i j d)
          = tensorSum X.dimN X.dimH X.dimW X.dimD
              (fun n h w d => X.data n h w d * DX.data n h w d) := by
  refine ⟨_, rfl, ?_⟩
  unfold tensorSum
  refine Finset.sum_congr rfl fun n _ => Finset.sum_congr rfl fun d _ => ?_
  simp only [SumPool.forward, SumPool.backward, forwardData, backwardData, windowSum]
  have push : ∀ h w,
      X.data n h w d *
          (∑ i ∈ Finset.range (houtDim X.dimH L.pool.1 L.stride.1),
            ∑ j ∈ Finset.range (houtDim X.dimW L.pool.2 L.stride.2),
              if inWindow L.pool.1 L.pool.2 L.stride.1 L.stride.2 i j h w then
                DY.data n i j d * L.nrm else 0)
        = ∑ i ∈ Finset.range (houtDim X.dimH L.pool.1 L.stride.1),
            ∑ j ∈ Finset.range (houtDim X.dimW L.pool.2 L.stride.2),
              if inWindow L.pool.1 L.pool.2 L.stride.1 L.stride.2 i j h w then
                X.data n h w d * (DY.data n i j d * L.nrm) else 0 := by
    intro h w
    rw [Finset.mul_sum]
    refine Finset.sum_congr rfl fun i _ => ?_
    rw [Finset.mul_sum]
    refine Finset.sum_congr rfl fun j _ => ?_
    rw [mul_ite, mul_zero]
  rw [Finset.sum_congr rfl fun h _ => Finset.sum_congr rfl fun w _ => push h w]
  rw [sum_accumulate L.pool.1 L.pool.2 L.stride.1 L.stride.2 X.dimH X.dimW hph hpw hdh hdw
    (fun i j h w => X.data n h w d * (DY.data n i j d * L.nrm))]
  refine Finset.sum_congr rfl fun i _ => Finset.sum_congr rfl fun j _ => ?_
  rw [mul_assoc, Finset.sum_mul]
  refine Finset.sum_congr rfl fun a _ => ?_
  rw [Finset.sum_mul]
  refine Finset.sum_congr rfl fun b _ => ?_
  ring

/-- Witness for C1 at `pool = stride = (2,2)`, all-ones `X` of shape
`(1,4,4,1)` and all-ones `dY` of shape `(1,2,2,1)`. -/
theorem sumpool_backward_adjoint_witness :
    ∃ DX : STensor,
      (((pool22.forward onesX4).1).backward onesR2).2 = Except.ok DX
        ∧ tensorSum 1 2 2 1
            (fun n i j d => (pool22.forward onesX4).2.data n i j d * onesR2.data n i j d)
          = tensorSum 1 4 4 1
              (fun n h w d => onesX4.data n h w d * DX.data n h w d) :=
  sumpool_backward_adjoint pool22 onesX4 onesR2 (by decide) (by decide) (by decide) (by decide)

/-- Pulling a common divisor and multiplier out of a double sum. -/
lemma sum2_div_mul (s t : Finset ℕ) (f : ℕ → ℕ → ℚ) (Z R : ℚ) :
    (∑ a ∈ s, ∑ b ∈ t, f a b / Z * R) = (∑ a ∈ s, ∑ b ∈ t, f a b) / Z * R := by
  rw [Finset.sum_div, Finset.sum_mul]
  refine Finset.sum_congr rfl fun a _ => ?_
  rw [Finset.sum_div, Finset.sum_mul]

/-- The sign-matched stabilizer moves a window sum away from zero, so the
relative deviation `|S/(S + 1e-12*sign(S)) - 1|` of a stabilized `simple`
quotient is at most `1e-12 / m` whenever `m ≤ |S|`. -/
lemma stab_dev_bound (S m : ℚ) (hm : 0 < m) (hS : m ≤ |S|) :
    |S / (S + 1e-12 * stabSign S) - 1| ≤ 1e-12 / m := by
  have heps : (0 : ℚ) < 1e-12 := by norm_num
  rcases le_or_lt 0 S with hpos | hneg
  · have hsgn : stabSign S = 1 := by rw [stabSign, if_pos hpos]; norm_num
    have hSm : m ≤ S := by rwa [abs_of_nonneg hpos] at hS
    have hZ : S + 1e-12 * stabSign S = S + 1e-12 := by rw [hsgn]; ring
    have hZpos : 0 < S + 1e-12 := by linarith
    have hne : S + 1e-12 ≠ 0 := ne_of_gt hZpos
    rw [hZ, div_sub_one hne]
    have hnum : S - (S + 1e-12) = -(1e-12) := by ring
    rw [hnum, abs_div, abs_neg, abs_of_pos heps, abs_of_pos hZpos]
    have hmZ : m ≤ S + 1e-12 := by linarith
    gcongr
  · have hsgn : stabSign S = -1 := by
      rw [stabSign, if_neg (not_le.mpr hneg)]; norm_num
    have hSm : m ≤ -S := by rwa [abs_of_neg hneg] at hS
    have hZ : S + 1e-12 * stabSign S = S - 1e-12 := by rw [hsgn]; ring
    have hZneg : S - 1e-12 < 0 := by linarith
    have hne : S - 1e-12 ≠ 0 := ne_of_lt hZneg
    rw [hZ, div_sub_one hne]
    have hnum : S - (S - 1e-12) = 1e-12 := by ring
    rw [hnum, abs_div, abs_of_pos heps, abs_of_neg hZneg]
    have hmZ : m ≤ -(S - 1e-12) := by linarith
    gcongr

/-- A weighted double sum whose weights all lie within `c` of `1` deviates
from the unweighted sum by at most `(sum of absolute values) * c`. -/
lemma sum_dev_bound (I J : Finset ℕ) (q r : ℕ → ℕ → ℚ) (c : ℚ)
    (hq : ∀ i ∈ I, ∀ j ∈ J, |q i j - 1| ≤ c) :
    |(∑ i ∈ I, ∑ j ∈ J, q i j * r i j) - ∑ i ∈ I, ∑ j ∈ J, r i j|
      ≤ (∑ i ∈ I, ∑ j ∈ J, |r i j|) * c := by
  have hdiff : (∑ i ∈ I, ∑ j ∈ J, q i j * r i j) - ∑ i ∈ I, ∑ j ∈ J, r i j
      = ∑ i ∈ I, ∑ j ∈ J, (q i j * r i j - r i j) := by
    rw [← Finset.sum_sub_distrib]
    exact Finset.sum_congr rfl fun i _ => Finset.sum_sub_distrib.symm
  rw [hdiff, Finset.sum_mul]
  refine le_trans (Finset.abs_sum_le_sum_abs _ _) ?_
  refine Finset.sum_le_sum fun i hi => ?_
  rw [Finset.sum_mul]
  refine le_trans (Finset.abs_sum_le_sum_abs _ _) ?_
  refine Finset.sum_le_sum fun j hj => ?_
  have hrw : q i j * r i j - r i j = (q i j - 1) * r i j := by ring
  rw [hrw, abs_mul, mul_comm]
  exact mul_le_mul_of_nonneg_left (hq i hi j hj) (abs_nonneg _)

/-- Claim C4: relevance conservation for non-overlapping pooling
(`stride == pool`, expressed by using the pool extents as the strides, under
the exact-divisibility precondition): for every batch/channel slice the
spatial sum of `_flat_lrp(R)` equals the spatial sum of `R` exactly, and the
spatial sum of `_simple_lrp(R)` deviates from the spatial sum of `R` by at
most `(sum |R|) * (1e-12 / m)` whenever every window sum has magnitude at
least `m` — exactly the tolerance introduced by the `1e-12` stabilizer. -/
theorem sumpool_lrp_conservation (hpool wpool H W : ℕ) (X R : Tdata) (n d : ℕ)
    (hp0 : 0 < hpool) (wp0 : 0 < wpool) (hph : hpool ≤ H) (hpw : wpool ≤ W)
    (hdh : hpool ∣ H - hpool) (hdw : wpool ∣ W - wpool) :
    sliceSum H W (flatLrpData hpool wpool hpool wpool H W R) n d
        = sliceSum (houtDim H hpool hpool) (houtDim W wpool wpool) R n d
      ∧ ∀ m : ℚ, 0 < m →
          (∀ i ∈ Finset.range (houtDim H hpool hpool),
            ∀ j ∈ Finset.range (houtDim W wpool wpool),
              m ≤ |windowSum hpool wpool hpool wpool X n i j d|) →
          |sliceSum H W (simpleLrpData hpool wpool hpool wpool H W X R) n d
              - sliceSum (houtDim H hpool hpool) (houtDim W wpool wpool) R n d|
            ≤ sliceSum (houtDim H hpool hpool) (houtDim W wpool wpool)
                (fun n i j d => |R n i j d|) n d * (1e-12 / m) := by
  constructor
  · simp only [sliceSum, flatLrpData]
    rw [sum_accumulate hpool wpool hpool wpool H W hph hpw hdh hdw
      (fun i j h w =>
        1 / (∑ a ∈ Finset.range hpool, ∑ b ∈ Finset.range wpool, (1 : ℚ)) * R n i j d)]
    refine Finset.sum_congr rfl fun i _ => Finset.sum_congr rfl fun j _ => ?_
    rw [sum_const_window, sum_const_window]
    have h1 : ((hpool : ℚ)) ≠ 0 := Nat.cast_ne_zero.mpr hp0.ne'
    have h2 : ((wpool : ℚ)) ≠ 0 := Nat.cast_ne_zero.mpr wp0.ne'
    field_simp
    ring
  · intro m hm hws
    have key : sliceSum H W (simpleLrpData hpool wpool hpool wpool H W X R) n d
        = ∑ i ∈ Finset.range (houtDim H hpool hpool),
            ∑ j ∈ Finset.range (houtDim W wpool wpool),
              windowSum hpool wpool hpool wpool X n i j d /
                  (windowSum hpool wpool hpool wpool X n i j d +
                    1e-12 * stabSign (windowSum hpool wpool hpool wpool X n i j d)) *
                R n i j d := by
      simp only [sliceSum, simpleLrpData]
      rw [sum_accumulate hpool wpool hpool wpool H W hph hpw hdh hdw
        (fun i j h w => X n h w d /
            (windowSum hpool wpool hpool wpool X n i j d +
              1e-12 * stabSign (windowSum hpool wpool hpool wpool X n i j d)) *
          R n i j d)]
      refine Finset.sum_congr rfl fun i _ => Finset.sum_congr rfl fun j _ => ?_
      exact sum2_div_mul (Finset.range hpool) (Finset.range wpool)
        (fun a b => X n (i * hpool + a) (j * wpool + b) d) _ _
    rw [key]
    simp only [sliceSum]
    exact sum_dev_bound (Finset.range (houtDim H hpool hpool))
      (Finset.range (houtDim W wpool wpool))
      (fun i j => windowSum hpool wpool hpool wpool X n i j d /
        (windowSum hpool wpool hpool wpool X n i j d +
          1e-12 * stabSign (windowSum hpool wpool hpool wpool X n i j d)))
      (fun i j => R n i j d) (1e-12 / m)
      (fun i hi j hj => stab_dev_bound _ m hm (hws i hi j hj))

/-- Witness for C4: all-ones `(1,4,4,1)` input and all-ones relevance with
`pool = stride = (2,2)`; every window sum is `4`, so `m = 4` works. -/
theorem sumpool_lrp_conservation_witness :
    (sliceSum 4 4 (flatLrpData 2 2 2 2 4 4 onesData) 0 0
        = sliceSum 2 2 onesData 0 0)
      ∧ |sliceSum 4 4 (simpleLrpData 2 2 2 2 4 4 onesData onesData) 0 0
            - sliceSum 2 2 onesData 0 0|
          ≤ sliceSum 2 2 (fun n i j d => |onesData n i j d|) 0 0 * (1e-12 / 4) := by
  have h := sumpool_lrp_conservation 2 2 4 4 onesData onesData 0 0
    (by decide) (by decide) (by decide) (by decide) (by decide) (by decide)
  exact ⟨h.1, h.2 4 (by norm_num)
    (by
      intro i hi j hj
      fin_cases hi <;> fin_cases hj <;>
        norm_num [windowSum, onesData, Finset.sum_range_succ])⟩

/-- Claim C7: `_flat_lrp` distributes each output position's relevance
uniformly over its pooling window with per-element weight
`1/(poolHeight*poolWidth)`, accumulating overlapping windows additively; it
is independent of the cached input's values (only the shape is read).
Concretely, for cached input of shape `(1,4,4,1)`, `pool = stride = (2,2)`
and all-ones `R` of shape `(1,2,2,1)`, the result has shape `(1,4,4,1)` and
every element equals `1/4`. -/
theorem sumpool_flat_distribution :
    (∀ (hpool wpool hstride wstride H W : ℕ) (R : Tdata) (n h w d : ℕ),
        flatLrpData hpool wpool hstride wstride H W R n h w d
          = ∑ i ∈ Finset.range (houtDim H hpool hstride),
              ∑ j ∈ Finset.range (houtDim W wpool wstride),
                if inWindow hpool wpool hstride wstride i j h w then
                  1 / ((hpool : ℚ) * (wpool : ℚ)) * R n i j d
                else 0)
      ∧ (∀ (L : SumPool) (X1 X2 R : STensor), X1.dimN = X2.dimN → X1.dimH = X2.dimH →
          X1.dimW = X2.dimW → X1.dimD = X2.dimD →
          (({ L with X := some X1 } : SumPool).flat_lrp R).2
            = (({ L with X := some X2 } : SumPool).flat_lrp R).2)
      ∧ ((((pool22.forward onesX4).1).flat_lrp onesR2).2
            = Except.ok ⟨1, 4, 4, 1, flatLrpData 2 2 2 2 4 4 onesData⟩
          ∧ ∀ h w : ℕ, h < 4 → w < 4 → flatLrpData 2 2 2 2 4 4 onesData 0 h w 0 = 1 / 4) := by
  refine ⟨?_, ?_, rfl, ?_⟩
  · intro hpool wpool hstride wstride H W R n h w d
    unfold flatLrpData
    refine Finset.sum_congr rfl fun i _ => Finset.sum_congr rfl fun j _ => ?_
    by_cases hc : inWindow hpool wpool hstride wstride i j h w
    · rw [if_pos hc, if_pos hc, sum_const_window, mul_one]
    · rw [if_neg hc, if_neg hc]
  · intro L X1 X2 R h1 h2 h3 h4
    simp only [SumPool.flat_lrp]
    rw [h1, h2, h3, h4]
  · intro h w hh hw
    interval_cases h <;> interval_cases w <;>
      norm_num [flatLrpData, inWindow, houtDim, onesData, Finset.sum_range_succ]

/-- Witness for C7: input-independence at a concrete pair of cached inputs,
and the concrete `1/4` value at position `(3,3)`. -/
theorem sumpool_flat_distribution_witness :
    ((({ pool22 with X := some onesX4 } : SumPool).flat_lrp onesR2).2
        = (({ pool22 with X := some ⟨1, 4, 4, 1, fun _ _ _ _ => 0⟩ } : SumPool).flat_lrp
            onesR2).2)
      ∧ flatLrpData 2 2 2 2 4 4 onesData 0 3 3 0 = 1 / 4 :=
  ⟨sumpool_flat_distribution.2.1 pool22 onesX4 ⟨1, 4, 4, 1, fun _ _ _ _ => 0⟩ onesR2
      rfl rfl rfl rfl,
    sumpool_flat_distribution.2.2.2 3 3 (by decide) (by decide)⟩
